import Mathlib

/-!
Verification of the naming-pattern grammar of the `eslint-config` repository
(`src/eslint.config.mjs`).

The repository's only algorithmic content is the composition of extended-glob
pattern fragments encoding the TanStack Start route-segment naming grammar.
We embed those patterns shallowly as values of a small pattern type `Pat`
(character classes, literals, concatenation, alternation, repetition), give
them an inductive language semantics `Lang`, and an executable matcher
`gmatch` based on Brzozowski derivatives, proved sound and complete with
respect to `Lang`.  Every pattern constant below mirrors, fragment by
fragment, the corresponding exported constant of `src/eslint.config.mjs`.
-/

namespace EslintConfig

/-- Extended-glob pattern fragments, as used by the naming constants of
`eslint.config.mjs`: the empty language, the empty word, a character class,
concatenation, alternation, and Kleene repetition (`*(...)`). -/
inductive Pat where
  | emp : Pat
  | eps : Pat
  | chr : (Char → Bool) → Pat
  | cat : Pat → Pat → Pat
  | alt : Pat → Pat → Pat
  | star : Pat → Pat

namespace Pat

/-- The language of a pattern, as an inductive predicate on character lists. -/
inductive Lang : Pat → List Char → Prop where
  | eps : Lang .eps []
  | chr {p : Char → Bool} {c : Char} : p c = true → Lang (.chr p) [c]
  | cat {a b : Pat} {s t : List Char} :
      Lang a s → Lang b t → Lang (.cat a b) (s ++ t)
  | altL {a b : Pat} {s : List Char} : Lang a s → Lang (.alt a b) s
  | altR {a b : Pat} {s : List Char} : Lang b s → Lang (.alt a b) s
  | starNil {a : Pat} : Lang (.star a) []
  | starCons {a : Pat} {s t : List Char} :
      Lang a s → Lang (.star a) t → Lang (.star a) (s ++ t)

/-- Whether a pattern accepts the empty word. -/
def nullable : Pat → Bool
  | .emp => false
  | .eps => true
  | .chr _ => false
  | .cat a b => nullable a && nullable b
  | .alt a b => nullable a || nullable b
  | .star _ => true

/-- Concatenation with on-the-fly simplification of the `emp`/`eps` units. -/
def catS : Pat → Pat → Pat
  | .emp, _ => .emp
  | _, .emp => .emp
  | .eps, b => b
  | a, .eps => a
  | a, b => .cat a b

/-- Alternation with on-the-fly simplification of the `emp` unit. -/
def altS : Pat → Pat → Pat
  | .emp, b => b
  | a, .emp => a
  | a, b => .alt a b

/-- Brzozowski derivative of a pattern with respect to one character. -/
def deriv (c : Char) : Pat → Pat
  | .emp => .emp
  | .eps => .emp
  | .chr p => if p c then .eps else .emp
  | .cat a b =>
      if nullable a then altS (catS (deriv c a) b) (deriv c b)
      else catS (deriv c a) b
  | .alt a b => altS (deriv c a) (deriv c b)
  | .star a => catS (deriv c a) (.star a)

/-- The executable matcher: repeated derivatives, then a nullability test. -/
def gmatch (p : Pat) (s : List Char) : Bool :=
  nullable (s.foldl (fun q c => deriv c q) p)

/-- Pattern matching exactly one given character (an escaped literal such as
`\$` in the source globs). -/
def lit (c : Char) : Pat := .chr (fun x => x == c)

/-- Pattern matching exactly one given word (a literal alternative such as
`index` in the source globs). -/
def litStr : List Char → Pat
  | [] => .eps
  | c :: cs => .cat (lit c) (litStr cs)

/-- One-or-more repetition, the `+(...)` extended-glob operator. -/
def plus (p : Pat) : Pat := .cat p (.star p)

/-- Every character class appearing in `p` is contained in the class `P`. -/
def ChrsSat (P : Char → Bool) : Pat → Prop
  | .emp => True
  | .eps => True
  | .chr q => ∀ c, q c = true → P c = true
  | .cat a b => ChrsSat P a ∧ ChrsSat P b
  | .alt a b => ChrsSat P a ∧ ChrsSat P b
  | .star a => ChrsSat P a

@[simp] theorem lang_emp_iff {s : List Char} : Lang .emp s ↔ False := by
  constructor
  · intro h; cases h
  · intro h; exact h.elim

@[simp] theorem lang_eps_iff {s : List Char} : Lang .eps s ↔ s = [] := by
  constructor
  · intro h; cases h; rfl
  · intro h; subst h; exact Lang.eps

@[simp] theorem lang_chr_iff {p : Char → Bool} {s : List Char} :
    Lang (.chr p) s ↔ ∃ c, s = [c] ∧ p c = true := by
  constructor
  · intro h; cases h with
    | chr hc => exact ⟨_, rfl, hc⟩
  · rintro ⟨c, rfl, hc⟩; exact Lang.chr hc

@[simp] theorem lang_cat_iff {a b : Pat} {s : List Char} :
    Lang (.cat a b) s ↔ ∃ u v, s = u ++ v ∧ Lang a u ∧ Lang b v := by
  constructor
  · intro h; cases h with
    | cat ha hb => exact ⟨_, _, rfl, ha, hb⟩
  · rintro ⟨u, v, rfl, ha, hb⟩; exact Lang.cat ha hb

@[simp] theorem lang_alt_iff {a b : Pat} {s : List Char} :
    Lang (.alt a b) s ↔ Lang a s ∨ Lang b s := by
  constructor
  · intro h; cases h with
    | altL h => exact Or.inl h
    | altR h => exact Or.inr h
  · rintro (h | h)
    · exact Lang.altL h
    · exact Lang.altR h

end Pat

open Pat

/-- The character class `[a-z]`. -/
def lowerB (c : Char) : Bool := 'a' ≤ c && c ≤ 'z'

/-- The character class `[0-9]`. -/
def digitB (c : Char) : Bool := '0' ≤ c && c ≤ '9'

/-- The character class `[A-Z]`. -/
def upperB (c : Char) : Bool := 'A' ≤ c && c ≤ 'Z'

/-- The character class `[a-z0-9]`. -/
def lowerDigitB (c : Char) : Bool := lowerB c || digitB c

/-- Source constant `CAMEL_CASE = '+([a-z])*([a-z0-9])*([A-Z]*([a-z0-9]))'`
(`eslint.config.mjs`, line 42): camelCase or PascalCase segment body. -/
def CAMEL_CASE : Pat :=
  .cat (plus (.chr lowerB))
    (.cat (.star (.chr lowerDigitB))
      (.star (.cat (.chr upperB) (.star (.chr lowerDigitB)))))

/-- Source constant `KEBAB_CASE = '+([a-z])*([a-z0-9])*(-+([a-z0-9]))'`
(`eslint.config.mjs`, line 48): kebab-case segment. -/
def KEBAB_CASE : Pat :=
  .cat (plus (.chr lowerB))
    (.cat (.star (.chr lowerDigitB))
      (.star (.cat (lit '-') (plus (.chr lowerDigitB)))))

/-- Source constant `TANSTACK_DYNAMIC_SEGMENTS = `\$${CAMEL_CASE}``
(`eslint.config.mjs`, line 54): dynamic route segments such as `$id`. -/
def TANSTACK_DYNAMIC_SEGMENTS : Pat := .cat (lit '$') CAMEL_CASE

/-- Source constant `TANSTACK_OPTIONAL_SEGMENTS = `\$(?:${CAMEL_CASE}\?|\.${CAMEL_CASE})``
(`eslint.config.mjs`, line 60): optional dynamic route segments such as
`$id?` and `$.slug`. -/
def TANSTACK_OPTIONAL_SEGMENTS : Pat :=
  .cat (lit '$') (.alt (.cat CAMEL_CASE (lit '?')) (.cat (lit '.') CAMEL_CASE))

/-- Source constant `TANSTACK_CATCH_ALL_SEGMENTS = `\$`` (`eslint.config.mjs`, line 66):
the bare-sigil catch-all segment. -/
def TANSTACK_CATCH_ALL_SEGMENTS : Pat := lit '$'

/-- Source constant `TANSTACK_ROUTE_GROUPS = `\(${KEBAB_CASE}\)``
(`eslint.config.mjs`, line 72): grouped routes inside parentheses. -/
def TANSTACK_ROUTE_GROUPS : Pat := .cat (lit '(') (.cat KEBAB_CASE (lit ')'))

/-- Source constant `TANSTACK_PRIVATE_FOLDERS = `\_${CAMEL_CASE}``
(`eslint.config.mjs`, line 78): private folders prefixed with underscore. -/
def TANSTACK_PRIVATE_FOLDERS : Pat := .cat (lit '_') CAMEL_CASE

/-- Source constant `TANSTACK_STATIC_ROUTE = `(?:${KEBAB_CASE}|${CAMEL_CASE})``
(`eslint.config.mjs`, line 84): static route segment. -/
def TANSTACK_STATIC_ROUTE : Pat := .alt KEBAB_CASE CAMEL_CASE

/-- Source constant `TANSTACK_ROUTE_SEGMENT` (`eslint.config.mjs`, line 89): the `@(...)`
alternation of the six route-segment kinds. -/
def TANSTACK_ROUTE_SEGMENT : Pat :=
  .alt TANSTACK_STATIC_ROUTE
    (.alt TANSTACK_DYNAMIC_SEGMENTS
      (.alt TANSTACK_OPTIONAL_SEGMENTS
        (.alt TANSTACK_CATCH_ALL_SEGMENTS
          (.alt TANSTACK_ROUTE_GROUPS TANSTACK_PRIVATE_FOLDERS))))

/-- Source constant `TANSTACK_FILENAME_CASE` (`eslint.config.mjs`, line 94): the `@(...)`
alternation of the literals `index` and `route` with the six route-segment
kinds, validating a file's base name. -/
def TANSTACK_FILENAME_CASE : Pat :=
  .alt (litStr "index".toList)
    (.alt (litStr "route".toList)
      (.alt TANSTACK_STATIC_ROUTE
        (.alt TANSTACK_DYNAMIC_SEGMENTS
          (.alt TANSTACK_OPTIONAL_SEGMENTS
            (.alt TANSTACK_CATCH_ALL_SEGMENTS
              (.alt TANSTACK_ROUTE_GROUPS TANSTACK_PRIVATE_FOLDERS))))))

/-- Source constant `TANSTACK_FOLDER_CASE` (`eslint.config.mjs`, line 99): the `@(...)`
alternation of the six route-segment kinds, validating a folder name. -/
def TANSTACK_FOLDER_CASE : Pat :=
  .alt TANSTACK_STATIC_ROUTE
    (.alt TANSTACK_DYNAMIC_SEGMENTS
      (.alt TANSTACK_OPTIONAL_SEGMENTS
        (.alt TANSTACK_CATCH_ALL_SEGMENTS
          (.alt TANSTACK_ROUTE_GROUPS TANSTACK_PRIVATE_FOLDERS))))

/-- Alphanumeric characters: the union of the three classes occurring in
`CAMEL_CASE`. -/
def alnumB (c : Char) : Bool := lowerB c || digitB c || upperB c

/-- The characters that can occur in a `KEBAB_CASE` match. -/
def kebabCharsB (c : Char) : Bool := lowerB c || digitB c || c == '-'

/-- The characters that can occur in a `TANSTACK_FILENAME_CASE` match. -/
def fnCharsB (c : Char) : Bool :=
  alnumB c || c == '-' || c == '$' || c == '?' ||
    c == '.' || c == '(' || c == ')' || c == '_'

/-- One hyphen-led group of `KEBAB_CASE`: the unit of `*(-+([a-z0-9]))`. -/
def IsKebabGroup (r : List Char) : Prop :=
  ∃ u, r = '-' :: u ∧ u ≠ [] ∧ ∀ c ∈ u, lowerDigitB c = true

/-- One uppercase-led alphanumeric run, in the spec's words: one uppercase
letter followed by zero or more lowercase letters or digits. -/
def IsCamelRun (r : List Char) : Prop :=
  ∃ u t, r = u :: t ∧ upperB u = true ∧ ∀ c ∈ t, lowerDigitB c = true

/-- The camel/Pascal shape in the spec's words: one or more lowercase
letters, followed by zero or more lowercase letters or digits, followed by
zero or more uppercase-led alphanumeric runs. -/
def CamelSpec (s : List Char) : Prop :=
  ∃ (a b : List Char) (rs : List (List Char)),
    s = a ++ (b ++ rs.flatten) ∧ a ≠ [] ∧ (∀ c ∈ a, lowerB c = true) ∧
    (∀ c ∈ b, lowerDigitB c = true) ∧ ∀ r ∈ rs, IsCamelRun r

/-- Spec-side definition (C4): the optional-segment pattern as the spec
words it, the alternation of the dynamic atomic followed by a literal
question mark with a literal dollar-dot followed by the camel-case
atomic. -/
def OptionalSpecPat : Pat :=
  .alt (.cat TANSTACK_DYNAMIC_SEGMENTS (lit '?'))
    (.cat (litStr "$.".toList) CAMEL_CASE)

/-- The value side of one entry of the
`check-file/folder-naming-convention` rule options: either the name of a
built-in style of the plugin, or a composed pattern. -/
inductive FolderNamingValue where
  | builtin : String → FolderNamingValue
  | pattern : Pat → FolderNamingValue

/-- The `check-file/folder-naming-convention` option object
(`eslint.config.mjs`, lines 219-231): glob keys mapped to naming rules. -/
def folderNamingConvention : List (String × FolderNamingValue) :=
  [("apps/*/app/routes/**", .pattern TANSTACK_FOLDER_CASE),
   ("apps/*/", .builtin "KEBAB_CASE"),
   ("packages/**/", .builtin "KEBAB_CASE")]

/-- Look up the naming rule mapped to a directory glob. -/
def lookupFolderRule (g : String) : Option FolderNamingValue :=
  (folderNamingConvention.find? (fun e => e.1 == g)).map (fun e => e.2)

namespace Pat

theorem exists_nil_append {P : List Char → Prop} {s : List Char} :
    (∃ u v, s = u ++ v ∧ u = [] ∧ P v) ↔ P s := by
  constructor
  · rintro ⟨u, v, rfl, rfl, h⟩; simpa using h
  · intro h; exact ⟨[], s, rfl, rfl, h⟩

theorem exists_append_nil {P : List Char → Prop} {s : List Char} :
    (∃ u v, s = u ++ v ∧ P u ∧ v = []) ↔ P s := by
  constructor
  · rintro ⟨u, v, rfl, h, rfl⟩; simpa using h
  · intro h; exact ⟨s, [], by simp, h, rfl⟩

theorem lang_catS {a b : Pat} {s : List Char} :
    Lang (catS a b) s ↔ Lang (.cat a b) s := by
  cases a <;> cases b <;>
    simp [catS, exists_nil_append, exists_append_nil]

theorem lang_altS {a b : Pat} {s : List Char} :
    Lang (altS a b) s ↔ Lang (.alt a b) s := by
  cases a <;> cases b <;> simp [altS]

theorem nullable_of_lang_nil : ∀ {p : Pat} {s : List Char},
    Lang p s → s = [] → nullable p = true := by
  intro p s h
  induction h with
  | eps => intro _; rfl
  | chr _ => intro h; cases h
  | cat ha hb iha ihb =>
      intro h
      rcases List.append_eq_nil.mp h with ⟨h1, h2⟩
      simp [nullable, iha h1, ihb h2]
  | altL _ ih => intro h; simp [nullable, ih h]
  | altR _ ih => intro h; simp [nullable, ih h]
  | starNil => intro _; rfl
  | starCons _ _ _ _ => intro _; rfl

theorem lang_nil_of_nullable : ∀ {p : Pat}, nullable p = true → Lang p [] := by
  intro p
  induction p with
  | emp => intro h; cases h
  | eps => intro _; exact Lang.eps
  | chr _ => intro h; cases h
  | cat a b iha ihb =>
      intro h
      have h' : nullable a = true ∧ nullable b = true := by
        simpa [nullable] using h
      exact (List.nil_append []) ▸ Lang.cat (iha h'.1) (ihb h'.2)
  | alt a b iha ihb =>
      intro h
      have h' : nullable a = true ∨ nullable b = true := by
        simpa [nullable] using h
      rcases h' with h1 | h2
      · exact Lang.altL (iha h1)
      · exact Lang.altR (ihb h2)
  | star a _ => intro _; exact Lang.starNil

theorem nullable_iff {p : Pat} : nullable p = true ↔ Lang p [] :=
  ⟨lang_nil_of_nullable, fun h => nullable_of_lang_nil h rfl⟩

theorem lang_of_deriv {c : Char} : ∀ {p : Pat} {s : List Char},
    Lang (deriv c p) s → Lang p (c :: s) := by
  intro p
  induction p with
  | emp => intro s h; simp [deriv] at h
  | eps => intro s h; simp [deriv] at h
  | chr q =>
      intro s h
      by_cases hq : q c = true
      · simp [deriv, hq] at h
        subst h
        exact Lang.chr hq
      · simp [deriv, hq] at h
  | cat a b iha ihb =>
      intro s h
      by_cases hn : nullable a = true
      · simp only [deriv, hn, if_true] at h
        rcases lang_alt_iff.mp (lang_altS.mp h) with h1 | h2
        · rcases lang_cat_iff.mp (lang_catS.mp h1) with ⟨u, v, rfl, hu, hv⟩
          exact Lang.cat (iha hu) hv
        · have := Lang.cat (lang_nil_of_nullable hn) (ihb h2)
          simpa using this
      · simp only [deriv, hn, if_false] at h
        rcases lang_cat_iff.mp (lang_catS.mp h) with ⟨u, v, rfl, hu, hv⟩
        exact Lang.cat (iha hu) hv
  | alt a b iha ihb =>
      intro s h
      rcases lang_alt_iff.mp (lang_altS.mp h) with h1 | h2
      · exact Lang.altL (iha h1)
      · exact Lang.altR (ihb h2)
  | star a iha =>
      intro s h
      rcases lang_cat_iff.mp (lang_catS.mp h) with ⟨u, v, rfl, hu, hv⟩
      exact Lang.starCons (iha hu) hv

theorem deriv_of_lang : ∀ {p : Pat} {u : List Char},
    Lang p u → ∀ (c : Char) (s : List Char), u = c :: s → Lang (deriv c p) s := by
  intro p u h
  induction h with
  | eps => intro c s h; cases h
  | chr hc =>
      intro c s h
      injection h with he hs
      subst he
      subst hs
      simp [deriv, hc]
  | @cat a b u v ha hb iha ihb =>
      intro c s h
      cases u with
      | nil =>
          simp only [List.nil_append] at h
          have hn : nullable a = true := nullable_of_lang_nil ha rfl
          simp only [deriv, hn, if_true]
          exact lang_altS.mpr (Lang.altR (ihb c s h))
      | cons c0 t =>
          injection h with he hs
          subst he
          subst hs
          have hcat : Lang (.cat (deriv c0 a) b) (t ++ v) :=
            Lang.cat (iha c0 t rfl) hb
          by_cases hn : nullable a = true
          · simp only [deriv, hn, if_true]
            exact lang_altS.mpr (Lang.altL (lang_catS.mpr hcat))
          · simp only [deriv, hn, if_false]
            exact lang_catS.mpr hcat
  | altL _ ih =>
      intro c s h
      exact lang_altS.mpr (Lang.altL (ih c s h))
  | altR _ ih =>
      intro c s h
      exact lang_altS.mpr (Lang.altR (ih c s h))
  | starNil => intro c s h; cases h
  | @starCons a u v ha hrest iha ihrest =>
      intro c s h
      cases u with
      | nil =>
          simp only [List.nil_append] at h
          exact ihrest c s h
      | cons c0 t =>
          injection h with he hs
          subst he
          subst hs
          exact lang_catS.mpr (Lang.cat (iha c0 t rfl) hrest)

theorem gmatch_iff : ∀ {s : List Char} {p : Pat}, gmatch p s = true ↔ Lang p s := by
  intro s
  induction s with
  | nil => intro p; exact nullable_iff
  | cons c t ih =>
      intro p
      have hfold : gmatch p (c :: t) = gmatch (deriv c p) t := rfl
      rw [hfold, ih]
      exact ⟨fun h => lang_of_deriv h, fun h => deriv_of_lang h c t rfl⟩

theorem lang_star_inv : ∀ {p : Pat} {s : List Char}, Lang p s →
    ∀ a : Pat, p = .star a →
      ∃ ls : List (List Char), s = ls.flatten ∧ ∀ t ∈ ls, Lang a t := by
  intro p s h
  induction h with
  | eps => intro a heq; simp at heq
  | chr _ => intro a heq; simp at heq
  | cat _ _ _ _ => intro a heq; simp at heq
  | altL _ _ => intro a heq; simp at heq
  | altR _ _ => intro a heq; simp at heq
  | starNil =>
      intro a heq
      exact ⟨[], rfl, by simp⟩
  | @starCons a0 u v ha _ _ ihrest =>
      intro a heq
      injection heq with h1
      subst h1
      obtain ⟨ls, rfl, hls⟩ := ihrest _ rfl
      refine ⟨u :: ls, by simp, ?_⟩
      intro t ht
      rcases List.mem_cons.mp ht with rfl | ht
      · exact ha
      · exact hls t ht

theorem lang_star_flatten {a : Pat} {s : List Char} :
    Lang (.star a) s ↔
      ∃ ls : List (List Char), s = ls.flatten ∧ ∀ t ∈ ls, Lang a t := by
  constructor
  · intro h; exact lang_star_inv h a rfl
  · rintro ⟨ls, rfl, hls⟩
    induction ls with
    | nil => exact Lang.starNil
    | cons t ls ih =>
        have ht : Lang a t := hls t (List.mem_cons_self t ls)
        have hrest : Lang (.star a) ls.flatten :=
          ih (fun u hu => hls u (List.mem_cons_of_mem t hu))
        simpa using Lang.starCons ht hrest

theorem lang_star_chr_iff {p : Char → Bool} {s : List Char} :
    Lang (.star (.chr p)) s ↔ ∀ c ∈ s, p c = true := by
  constructor
  · intro h
    obtain ⟨ls, rfl, hls⟩ := lang_star_flatten.mp h
    intro c hc
    obtain ⟨t, ht, hct⟩ := List.mem_flatten.mp hc
    obtain ⟨c0, rfl, hc0⟩ := lang_chr_iff.mp (hls t ht)
    rcases List.mem_singleton.mp hct with rfl
    exact hc0
  · intro h
    induction s with
    | nil => exact Lang.starNil
    | cons c t ih =>
        have hc : p c = true := h c (List.mem_cons_self c t)
        have ht : Lang (.star (.chr p)) t :=
          ih (fun x hx => h x (List.mem_cons_of_mem c hx))
        have : Lang (.star (.chr p)) ([c] ++ t) :=
          Lang.starCons (Lang.chr hc) ht
        simpa using this

theorem lang_plus_chr_iff {p : Char → Bool} {s : List Char} :
    Lang (plus (.chr p)) s ↔ s ≠ [] ∧ ∀ c ∈ s, p c = true := by
  unfold plus
  rw [lang_cat_iff]
  constructor
  · rintro ⟨u, v, rfl, hu, hv⟩
    obtain ⟨c, rfl, hc⟩ := lang_chr_iff.mp hu
    have hall := lang_star_chr_iff.mp hv
    refine ⟨by simp, ?_⟩
    intro x hx
    rcases List.mem_cons.mp hx with rfl | hx
    · exact hc
    · exact hall x hx
  · rintro ⟨hne, hall⟩
    cases s with
    | nil => exact absurd rfl hne
    | cons c t =>
        refine ⟨[c], t, rfl, lang_chr_iff.mpr ⟨c, rfl, hall c (by simp)⟩, ?_⟩
        exact lang_star_chr_iff.mpr (fun x hx => hall x (List.mem_cons_of_mem c hx))

theorem lang_lit_iff {c : Char} {s : List Char} :
    Lang (lit c) s ↔ s = [c] := by
  unfold lit
  rw [lang_chr_iff]
  constructor
  · rintro ⟨x, rfl, hx⟩
    have : x = c := by simpa using hx
    rw [this]
  · rintro rfl
    exact ⟨c, rfl, by simp⟩

theorem lang_litStr_iff : ∀ {l s : List Char}, Lang (litStr l) s ↔ s = l := by
  intro l
  induction l with
  | nil => intro s; simp [litStr]
  | cons c t ih =>
      intro s
      simp only [litStr, lang_cat_iff, lang_lit_iff, ih]
      constructor
      · rintro ⟨u, v, rfl, rfl, rfl⟩; rfl
      · rintro rfl; exact ⟨[c], t, rfl, rfl, rfl⟩

theorem lang_cat_lit {c : Char} {p : Pat} {s : List Char} :
    Lang (.cat (lit c) p) s ↔ ∃ t, s = c :: t ∧ Lang p t := by
  rw [lang_cat_iff]
  constructor
  · rintro ⟨u, v, rfl, hu, hv⟩
    rcases lang_lit_iff.mp hu with rfl
    exact ⟨v, rfl, hv⟩
  · rintro ⟨t, rfl, ht⟩
    exact ⟨[c], t, rfl, lang_lit_iff.mpr rfl, ht⟩

theorem lang_allchars {P : Char → Bool} : ∀ {p : Pat}, ChrsSat P p →
    ∀ {s : List Char}, Lang p s → ∀ c ∈ s, P c = true := by
  intro p
  induction p with
  | emp => intro _ s hs; cases hs
  | eps =>
      intro _ s hs
      rcases lang_eps_iff.mp hs with rfl
      intro c hc; cases hc
  | chr q =>
      intro hsat s hs
      obtain ⟨c0, rfl, hc0⟩ := lang_chr_iff.mp hs
      intro c hc
      rcases List.mem_singleton.mp hc with rfl
      exact hsat c hc0
  | cat a b iha ihb =>
      intro hsat s hs
      obtain ⟨u, v, rfl, hu, hv⟩ := lang_cat_iff.mp hs
      intro c hc
      rcases List.mem_append.mp hc with hc | hc
      · exact iha hsat.1 hu c hc
      · exact ihb hsat.2 hv c hc
  | alt a b iha ihb =>
      intro hsat s hs
      rcases lang_alt_iff.mp hs with hs | hs
      · exact iha hsat.1 hs
      · exact ihb hsat.2 hs
  | star a iha =>
      intro hsat s hs
      obtain ⟨ls, rfl, hls⟩ := lang_star_flatten.mp hs
      intro c hc
      obtain ⟨t, ht, hct⟩ := List.mem_flatten.mp hc
      exact iha hsat (hls t ht) c hct

end Pat

theorem lowerB_alnumB : ∀ c, lowerB c = true → alnumB c = true := by
  intro c h; simp [alnumB, h]

theorem upperB_alnumB : ∀ c, upperB c = true → alnumB c = true := by
  intro c h; simp [alnumB, h]

theorem lowerDigitB_alnumB : ∀ c, lowerDigitB c = true → alnumB c = true := by
  intro c h
  simp [lowerDigitB] at h
  rcases h with h | h <;> simp [alnumB, h]

theorem lowerB_not_upperB {c : Char} (h : lowerB c = true) : upperB c = false := by
  cases hu : upperB c with
  | false => rfl
  | true =>
      exfalso
      simp [lowerB] at h
      simp [upperB] at hu
      exact absurd (le_trans h.1 hu.2) (by decide)

theorem digitB_not_upperB {c : Char} (h : digitB c = true) : upperB c = false := by
  cases hu : upperB c with
  | false => rfl
  | true =>
      exfalso
      simp [digitB] at h
      simp [upperB] at hu
      exact absurd (le_trans hu.1 h.2) (by decide)

theorem chrsSat_camel : ChrsSat alnumB CAMEL_CASE :=
  ⟨⟨lowerB_alnumB, lowerB_alnumB⟩,
    lowerDigitB_alnumB, upperB_alnumB, lowerDigitB_alnumB⟩

theorem litChr_sat {P : Char → Bool} {c : Char} (h : P c = true) :
    ∀ x, (x == c) = true → P x = true := by
  intro x hx
  have : x = c := by simpa using hx
  rw [this]; exact h

theorem lowerB_kebabCharsB : ∀ c, lowerB c = true → kebabCharsB c = true := by
  intro c h; simp [kebabCharsB, h]

theorem lowerDigitB_kebabCharsB :
    ∀ c, lowerDigitB c = true → kebabCharsB c = true := by
  intro c h
  simp [lowerDigitB] at h
  rcases h with h | h <;> simp [kebabCharsB, h]

theorem chrsSat_kebab : ChrsSat kebabCharsB KEBAB_CASE :=
  ⟨⟨lowerB_kebabCharsB, lowerB_kebabCharsB⟩,
    lowerDigitB_kebabCharsB, litChr_sat (by decide),
    lowerDigitB_kebabCharsB, lowerDigitB_kebabCharsB⟩

theorem camel_allchars {s : List Char} (h : Lang CAMEL_CASE s) :
    ∀ c ∈ s, alnumB c = true :=
  lang_allchars chrsSat_camel h

theorem camel_head {s : List Char} (h : Lang CAMEL_CASE s) :
    ∃ c t, s = c :: t ∧ lowerB c = true := by
  unfold CAMEL_CASE at h
  obtain ⟨u, v, rfl, hu, hv⟩ := lang_cat_iff.mp h
  obtain ⟨hne, hall⟩ := lang_plus_chr_iff.mp hu
  cases u with
  | nil => exact absurd rfl hne
  | cons c t => exact ⟨c, t ++ v, by simp, hall c (by simp)⟩

theorem lang_kebabGroup_iff {r : List Char} :
    Lang (.cat (lit '-') (plus (.chr lowerDigitB))) r ↔ IsKebabGroup r := by
  rw [lang_cat_lit]
  constructor
  · rintro ⟨t, rfl, ht⟩
    obtain ⟨hne, hall⟩ := lang_plus_chr_iff.mp ht
    exact ⟨t, rfl, hne, hall⟩
  · rintro ⟨u, rfl, hne, hall⟩
    exact ⟨u, rfl, lang_plus_chr_iff.mpr ⟨hne, hall⟩⟩

theorem lang_star_kebabGroup_iff {s : List Char} :
    Lang (.star (.cat (lit '-') (plus (.chr lowerDigitB)))) s ↔
      ∃ rs : List (List Char), s = rs.flatten ∧ ∀ r ∈ rs, IsKebabGroup r := by
  rw [lang_star_flatten]
  constructor
  · rintro ⟨rs, rfl, h⟩
    exact ⟨rs, rfl, fun r hr => lang_kebabGroup_iff.mp (h r hr)⟩
  · rintro ⟨rs, rfl, h⟩
    exact ⟨rs, rfl, fun r hr => lang_kebabGroup_iff.mpr (h r hr)⟩

theorem kebab_decomp {s : List Char} :
    Lang KEBAB_CASE s ↔
      ∃ (a b : List Char) (rs : List (List Char)),
        s = a ++ (b ++ rs.flatten) ∧ a ≠ [] ∧
        (∀ c ∈ a, lowerB c = true) ∧ (∀ c ∈ b, lowerDigitB c = true) ∧
        ∀ r ∈ rs, IsKebabGroup r := by
  unfold KEBAB_CASE
  simp only [lang_cat_iff, lang_plus_chr_iff, lang_star_chr_iff,
    lang_star_kebabGroup_iff]
  constructor
  · rintro ⟨a, v, rfl, ⟨hane, ha⟩, b, w, rfl, hb, rs, rfl, hrs⟩
    exact ⟨a, b, rs, rfl, hane, ha, hb, hrs⟩
  · rintro ⟨a, b, rs, rfl, hane, ha, hb, hrs⟩
    exact ⟨a, b ++ rs.flatten, rfl, ⟨hane, ha⟩, b, rs.flatten, rfl, hb, rs, rfl, hrs⟩

theorem kebab_head {s : List Char} (h : Lang KEBAB_CASE s) :
    ∃ c t, s = c :: t ∧ lowerB c = true := by
  obtain ⟨a, b, rs, rfl, hane, ha, _, _⟩ := kebab_decomp.mp h
  cases a with
  | nil => exact absurd rfl hane
  | cons c t => exact ⟨c, t ++ (b ++ rs.flatten), by simp, ha c (by simp)⟩

theorem static_head {s : List Char} (h : Lang TANSTACK_STATIC_ROUTE s) :
    ∃ c t, s = c :: t ∧ lowerB c = true := by
  rcases lang_alt_iff.mp h with h | h
  · exact kebab_head h
  · exact camel_head h

theorem dyn_shape {s : List Char} (h : Lang TANSTACK_DYNAMIC_SEGMENTS s) :
    ∃ t, s = '$' :: t ∧ Lang CAMEL_CASE t := by
  unfold TANSTACK_DYNAMIC_SEGMENTS at h
  exact lang_cat_lit.mp h

theorem opt_shape {s : List Char} (h : Lang TANSTACK_OPTIONAL_SEGMENTS s) :
    ∃ t, s = '$' :: t ∧
      ((∃ u, t = u ++ ['?'] ∧ Lang CAMEL_CASE u) ∨
        (∃ u, t = '.' :: u ∧ Lang CAMEL_CASE u)) := by
  unfold TANSTACK_OPTIONAL_SEGMENTS at h
  obtain ⟨t, rfl, ht⟩ := lang_cat_lit.mp h
  refine ⟨t, rfl, ?_⟩
  rcases lang_alt_iff.mp ht with h1 | h2
  · obtain ⟨u, v, rfl, hu, hv⟩ := lang_cat_iff.mp h1
    rcases lang_lit_iff.mp hv with rfl
    exact Or.inl ⟨u, rfl, hu⟩
  · obtain ⟨u, rfl, hu⟩ := lang_cat_lit.mp h2
    exact Or.inr ⟨u, rfl, hu⟩

theorem catch_shape {s : List Char} (h : Lang TANSTACK_CATCH_ALL_SEGMENTS s) :
    s = ['$'] := by
  unfold TANSTACK_CATCH_ALL_SEGMENTS at h
  exact lang_lit_iff.mp h

theorem group_shape {s : List Char} (h : Lang TANSTACK_ROUTE_GROUPS s) :
    ∃ t, s = '(' :: t ∧ Lang (.cat KEBAB_CASE (lit ')')) t := by
  unfold TANSTACK_ROUTE_GROUPS at h
  exact lang_cat_lit.mp h

theorem priv_shape {s : List Char} (h : Lang TANSTACK_PRIVATE_FOLDERS s) :
    ∃ t, s = '_' :: t ∧ Lang CAMEL_CASE t := by
  unfold TANSTACK_PRIVATE_FOLDERS at h
  exact lang_cat_lit.mp h

theorem gmatch_and_false {X Y : Pat} (h : ∀ s, Lang X s → Lang Y s → False)
    (s : List Char) : (gmatch X s && gmatch Y s) = false := by
  cases hx : gmatch X s with
  | false => rfl
  | true =>
      cases hy : gmatch Y s with
      | false => rfl
      | true => exact (h s (gmatch_iff.mp hx) (gmatch_iff.mp hy)).elim

theorem head_excl {s : List Char} {d : Char}
    (h1 : ∃ c t, s = c :: t ∧ lowerB c = true) (hd : lowerB d = false)
    (h2 : ∃ t, s = d :: t) : False := by
  obtain ⟨c, t, rfl, hc⟩ := h1
  obtain ⟨t', heq⟩ := h2
  injection heq with he _
  exact absurd (he ▸ hc) (by simp [hd])

theorem cons_head_excl {s : List Char} {d e : Char} (hne : (d == e) = false)
    (h1 : ∃ t, s = d :: t) (h2 : ∃ t, s = e :: t) : False := by
  obtain ⟨t1, rfl⟩ := h1
  obtain ⟨t2, heq⟩ := h2
  injection heq with he _
  rw [he] at hne
  simp at hne

theorem static_dyn_excl : ∀ s,
    Lang TANSTACK_STATIC_ROUTE s → Lang TANSTACK_DYNAMIC_SEGMENTS s → False := by
  intro s h1 h2
  obtain ⟨t, ht, _⟩ := dyn_shape h2
  exact head_excl (static_head h1) (by decide) ⟨t, ht⟩

theorem static_opt_excl : ∀ s,
    Lang TANSTACK_STATIC_ROUTE s → Lang TANSTACK_OPTIONAL_SEGMENTS s → False := by
  intro s h1 h2
  obtain ⟨t, ht, _⟩ := opt_shape h2
  exact head_excl (static_head h1) (by decide) ⟨t, ht⟩

theorem static_catch_excl : ∀ s,
    Lang TANSTACK_STATIC_ROUTE s → Lang TANSTACK_CATCH_ALL_SEGMENTS s → False := by
  intro s h1 h2
  exact head_excl (static_head h1) (by decide) ⟨[], catch_shape h2⟩

theorem static_group_excl : ∀ s,
    Lang TANSTACK_STATIC_ROUTE s → Lang TANSTACK_ROUTE_GROUPS s → False := by
  intro s h1 h2
  obtain ⟨t, ht, _⟩ := group_shape h2
  exact head_excl (static_head h1) (by decide) ⟨t, ht⟩

theorem static_priv_excl : ∀ s,
    Lang TANSTACK_STATIC_ROUTE s → Lang TANSTACK_PRIVATE_FOLDERS s → False := by
  intro s h1 h2
  obtain ⟨t, ht, _⟩ := priv_shape h2
  exact head_excl (static_head h1) (by decide) ⟨t, ht⟩

theorem dyn_opt_excl : ∀ s,
    Lang TANSTACK_DYNAMIC_SEGMENTS s → Lang TANSTACK_OPTIONAL_SEGMENTS s → False := by
  intro s h1 h2
  obtain ⟨t, rfl, hcam⟩ := dyn_shape h1
  obtain ⟨t', heq, hopt⟩ := opt_shape h2
  injection heq with _ ht
  subst ht
  have hall := camel_allchars hcam
  rcases hopt with ⟨u, rfl, _⟩ | ⟨u, rfl, _⟩
  · exact absurd (hall '?' (by simp)) (by decide)
  · exact absurd (hall '.' (by simp)) (by decide)

theorem dyn_catch_excl : ∀ s,
    Lang TANSTACK_DYNAMIC_SEGMENTS s → Lang TANSTACK_CATCH_ALL_SEGMENTS s → False := by
  intro s h1 h2
  obtain ⟨t, rfl, hcam⟩ := dyn_shape h1
  have heq := catch_shape h2
  injection heq with _ ht
  obtain ⟨c, t', hct, _⟩ := camel_head hcam
  rw [ht] at hct
  cases hct

theorem dyn_group_excl : ∀ s,
    Lang TANSTACK_DYNAMIC_SEGMENTS s → Lang TANSTACK_ROUTE_GROUPS s → False := by
  intro s h1 h2
  obtain ⟨t1, ht1, _⟩ := dyn_shape h1
  obtain ⟨t2, ht2, _⟩ := group_shape h2
  exact cons_head_excl (by decide) ⟨t1, ht1⟩ ⟨t2, ht2⟩

theorem dyn_priv_excl : ∀ s,
    Lang TANSTACK_DYNAMIC_SEGMENTS s → Lang TANSTACK_PRIVATE_FOLDERS s → False := by
  intro s h1 h2
  obtain ⟨t1, ht1, _⟩ := dyn_shape h1
  obtain ⟨t2, ht2, _⟩ := priv_shape h2
  exact cons_head_excl (by decide) ⟨t1, ht1⟩ ⟨t2, ht2⟩

theorem catch_opt_excl : ∀ s,
    Lang TANSTACK_CATCH_ALL_SEGMENTS s → Lang TANSTACK_OPTIONAL_SEGMENTS s → False := by
  intro s h1 h2
  obtain ⟨t, rfl, hopt⟩ := opt_shape h2
  have heq := catch_shape h1
  injection heq with _ ht
  rcases hopt with ⟨u, hu, _⟩ | ⟨u, hu, _⟩
  · rw [ht] at hu
    exact absurd hu.symm (by simp)
  · rw [ht] at hu
    cases hu

theorem catch_group_excl : ∀ s,
    Lang TANSTACK_CATCH_ALL_SEGMENTS s → Lang TANSTACK_ROUTE_GROUPS s → False := by
  intro s h1 h2
  obtain ⟨t2, ht2, _⟩ := group_shape h2
  exact cons_head_excl (by decide) ⟨[], catch_shape h1⟩ ⟨t2, ht2⟩

theorem catch_priv_excl : ∀ s,
    Lang TANSTACK_CATCH_ALL_SEGMENTS s → Lang TANSTACK_PRIVATE_FOLDERS s → False := by
  intro s h1 h2
  obtain ⟨t2, ht2, _⟩ := priv_shape h2
  exact cons_head_excl (by decide) ⟨[], catch_shape h1⟩ ⟨t2, ht2⟩

theorem opt_group_excl : ∀ s,
    Lang TANSTACK_OPTIONAL_SEGMENTS s → Lang TANSTACK_ROUTE_GROUPS s → False := by
  intro s h1 h2
  obtain ⟨t1, ht1, _⟩ := opt_shape h1
  obtain ⟨t2, ht2, _⟩ := group_shape h2
  exact cons_head_excl (by decide) ⟨t1, ht1⟩ ⟨t2, ht2⟩

theorem opt_priv_excl : ∀ s,
    Lang TANSTACK_OPTIONAL_SEGMENTS s → Lang TANSTACK_PRIVATE_FOLDERS s → False := by
  intro s h1 h2
  obtain ⟨t1, ht1, _⟩ := opt_shape h1
  obtain ⟨t2, ht2, _⟩ := priv_shape h2
  exact cons_head_excl (by decide) ⟨t1, ht1⟩ ⟨t2, ht2⟩

theorem group_priv_excl : ∀ s,
    Lang TANSTACK_ROUTE_GROUPS s → Lang TANSTACK_PRIVATE_FOLDERS s → False := by
  intro s h1 h2
  obtain ⟨t1, ht1, _⟩ := group_shape h1
  obtain ⟨t2, ht2, _⟩ := priv_shape h2
  exact cons_head_excl (by decide) ⟨t1, ht1⟩ ⟨t2, ht2⟩

theorem bool_count_le_one : ∀ a b c d e f : Bool,
    (a && b) = false → (a && c) = false → (a && d) = false →
    (a && e) = false → (a && f) = false →
    (b && c) = false → (b && d) = false → (b && e) = false →
    (b && f) = false →
    (c && d) = false → (c && e) = false → (c && f) = false →
    (d && e) = false → (d && f) = false →
    (e && f) = false →
    (([a, b, c, d, e, f] : List Bool).count true) ≤ 1 := by decide

/-- C1: for every string `s`, `s` matches at most one of the six
route-segment kind patterns (`Static`, `DynamicParam`, `OptionalParam`,
`CatchAll`, `RouteGroup`, `PrivateFolder`); in particular the catch-all
pattern and the optional-segment pattern match no common string; and the
tolerated ambiguity inside `Static` is real: `"team"` matches both the
kebab-case and the camel-case alternative. -/
theorem C1_segment_kind_exclusivity :
    (∀ s : List Char,
      (([gmatch TANSTACK_STATIC_ROUTE s, gmatch TANSTACK_DYNAMIC_SEGMENTS s,
        gmatch TANSTACK_OPTIONAL_SEGMENTS s, gmatch TANSTACK_CATCH_ALL_SEGMENTS s,
        gmatch TANSTACK_ROUTE_GROUPS s, gmatch TANSTACK_PRIVATE_FOLDERS s] :
          List Bool).count true) ≤ 1) ∧
    (∀ s : List Char,
      (gmatch TANSTACK_CATCH_ALL_SEGMENTS s &&
        gmatch TANSTACK_OPTIONAL_SEGMENTS s) = false) ∧
    (gmatch KEBAB_CASE "team".toList && gmatch CAMEL_CASE "team".toList) = true := by
  refine ⟨?_, ?_, by decide⟩
  · intro s
    exact bool_count_le_one _ _ _ _ _ _
      (gmatch_and_false static_dyn_excl s)
      (gmatch_and_false static_opt_excl s)
      (gmatch_and_false static_catch_excl s)
      (gmatch_and_false static_group_excl s)
      (gmatch_and_false static_priv_excl s)
      (gmatch_and_false dyn_opt_excl s)
      (gmatch_and_false dyn_catch_excl s)
      (gmatch_and_false (fun s h1 h2 => dyn_group_excl s h1 h2) s)
      (gmatch_and_false dyn_priv_excl s)
      (gmatch_and_false (fun s h1 h2 => catch_opt_excl s h2 h1) s)
      (gmatch_and_false opt_group_excl s)
      (gmatch_and_false opt_priv_excl s)
      (gmatch_and_false catch_group_excl s)
      (gmatch_and_false catch_priv_excl s)
      (gmatch_and_false group_priv_excl s)
  · intro s
    exact gmatch_and_false catch_opt_excl s

theorem lang_camelRun_iff {r : List Char} :
    Lang (.cat (.chr upperB) (.star (.chr lowerDigitB))) r ↔ IsCamelRun r := by
  rw [lang_cat_iff]
  constructor
  · rintro ⟨u, v, rfl, hu, hv⟩
    obtain ⟨c, rfl, hc⟩ := lang_chr_iff.mp hu
    exact ⟨c, v, rfl, hc, lang_star_chr_iff.mp hv⟩
  · rintro ⟨u, t, rfl, hu, ht⟩
    exact ⟨[u], t, rfl, lang_chr_iff.mpr ⟨u, rfl, hu⟩, lang_star_chr_iff.mpr ht⟩

theorem lang_star_camelRun_iff {s : List Char} :
    Lang (.star (.cat (.chr upperB) (.star (.chr lowerDigitB)))) s ↔
      ∃ rs : List (List Char), s = rs.flatten ∧ ∀ r ∈ rs, IsCamelRun r := by
  rw [lang_star_flatten]
  constructor
  · rintro ⟨rs, rfl, h⟩
    exact ⟨rs, rfl, fun r hr => lang_camelRun_iff.mp (h r hr)⟩
  · rintro ⟨rs, rfl, h⟩
    exact ⟨rs, rfl, fun r hr => lang_camelRun_iff.mpr (h r hr)⟩

theorem camel_decomp {s : List Char} : Lang CAMEL_CASE s ↔ CamelSpec s := by
  unfold CAMEL_CASE CamelSpec
  simp only [lang_cat_iff, lang_plus_chr_iff, lang_star_chr_iff,
    lang_star_camelRun_iff]
  constructor
  · rintro ⟨a, v, rfl, ⟨hane, ha⟩, b, w, rfl, hb, rs, rfl, hrs⟩
    exact ⟨a, b, rs, rfl, hane, ha, hb, hrs⟩
  · rintro ⟨a, b, rs, rfl, hane, ha, hb, hrs⟩
    exact ⟨a, b ++ rs.flatten, rfl, ⟨hane, ha⟩, b, rs.flatten, rfl, hb, rs, rfl, hrs⟩

/-- C2: `CAMEL_CASE` matches exactly the strings of the spec's form (one or
more lowercase letters, then zero or more lowercase letters or digits, then
zero or more uppercase-led alphanumeric runs); consequently every matched
string contains no hyphen and begins with a lowercase letter. -/
theorem C2_camel_characterization :
    (∀ s : List Char, gmatch CAMEL_CASE s = true ↔ CamelSpec s) ∧
    (∀ s : List Char, gmatch CAMEL_CASE s = true →
      (∀ c ∈ s, ¬ c = '-') ∧ ∃ c t, s = c :: t ∧ lowerB c = true) := by
  constructor
  · intro s
    rw [gmatch_iff, camel_decomp]
  · intro s h
    have hl := gmatch_iff.mp h
    refine ⟨?_, camel_head hl⟩
    intro c hc hceq
    have halnum := camel_allchars hl c hc
    rw [hceq] at halnum
    exact absurd halnum (by decide)

/-- Witness for C2 at the concrete input `"productId"`. -/
theorem C2_camel_characterization_witness :
    gmatch CAMEL_CASE "productId".toList = true ∧
    CamelSpec ("productId".toList) ∧
    ((∀ c ∈ "productId".toList, ¬ c = '-') ∧
      ∃ c t, "productId".toList = c :: t ∧ lowerB c = true) := by
  have h : gmatch CAMEL_CASE "productId".toList = true := by decide
  exact ⟨h, (C2_camel_characterization.1 _).mp h,
    C2_camel_characterization.2 _ h⟩

theorem mem_of_getLast {l : List Char} {x : Char} (h : l.getLast? = some x) :
    x ∈ l := by
  obtain ⟨hne, heq⟩ :=
    List.mem_getLast?_eq_getLast (show x ∈ l.getLast? from h)
  rw [heq]
  exact List.getLast_mem hne

theorem kebabGroup_getLast {r : List Char} (h : IsKebabGroup r) :
    ∀ x, r.getLast? = some x → lowerDigitB x = true := by
  obtain ⟨u, rfl, hne, hall⟩ := h
  cases u with
  | nil => exact absurd rfl hne
  | cons y u' =>
      intro x hx
      rw [List.getLast?_cons_cons] at hx
      exact hall x (mem_of_getLast hx)

theorem kebabGroups_flatten_getLast :
    ∀ rs : List (List Char), (∀ r ∈ rs, IsKebabGroup r) →
      ∀ x, rs.flatten.getLast? = some x → lowerDigitB x = true := by
  intro rs
  induction rs with
  | nil => intro _ x hx; simp at hx
  | cons r rest ih =>
      intro hall x hx
      by_cases hrest : rest.flatten = []
      · rw [List.flatten_cons, hrest, List.append_nil] at hx
        exact kebabGroup_getLast (hall r (by simp)) x hx
      · rw [List.flatten_cons, List.getLast?_append_of_ne_nil _ hrest] at hx
        exact ih (fun r' hr' => hall r' (List.mem_cons_of_mem _ hr')) x hx

theorem lowerB_ne_hyphen {c : Char} (h : lowerB c = true) : ¬ c = '-' := by
  intro hc
  rw [hc] at h
  exact absurd h (by decide)

theorem lowerDigitB_ne_hyphen {c : Char} (h : lowerDigitB c = true) :
    ¬ c = '-' := by
  intro hc
  rw [hc] at h
  exact absurd h (by decide)

theorem kebab_trailing {s : List Char} (h : Lang KEBAB_CASE s) :
    s.getLast? ≠ some '-' := by
  obtain ⟨a, b, rs, rfl, hane, ha, hb, hrs⟩ := kebab_decomp.mp h
  intro hx
  by_cases hfl : rs.flatten = []
  · rw [hfl, List.append_nil] at hx
    by_cases hbe : b = []
    · rw [hbe, List.append_nil] at hx
      exact lowerB_ne_hyphen (ha '-' (mem_of_getLast hx)) rfl
    · rw [List.getLast?_append_of_ne_nil _ hbe] at hx
      exact lowerDigitB_ne_hyphen (hb '-' (mem_of_getLast hx)) rfl
  · have hbfl : b ++ rs.flatten ≠ [] :=
      fun hc => hfl (List.append_eq_nil.mp hc).2
    rw [List.getLast?_append_of_ne_nil _ hbfl,
      List.getLast?_append_of_ne_nil _ hfl] at hx
    have := kebabGroups_flatten_getLast rs hrs '-' hx
    exact absurd this (by decide)

theorem chain'_of_no_hyphen {l : List Char} (h : ∀ c ∈ l, ¬ c = '-') :
    List.Chain' (fun x y => ¬(x = '-' ∧ y = '-')) l := by
  induction l with
  | nil => simp
  | cons x t ih =>
      rw [List.chain'_cons']
      refine ⟨?_, ih (fun c hc => h c (List.mem_cons_of_mem _ hc))⟩
      intro y _ hxy
      exact h x (by simp) hxy.1

theorem chain'_kebabGroup {r : List Char} (h : IsKebabGroup r) :
    List.Chain' (fun x y => ¬(x = '-' ∧ y = '-')) r := by
  obtain ⟨u, rfl, hne, hall⟩ := h
  rw [List.chain'_cons']
  refine ⟨?_, chain'_of_no_hyphen (fun c hc => lowerDigitB_ne_hyphen (hall c hc))⟩
  intro y hy hxy
  exact lowerDigitB_ne_hyphen (hall y (List.mem_of_mem_head? hy)) hxy.2

theorem chain'_kebabGroups_flatten :
    ∀ rs : List (List Char), (∀ r ∈ rs, IsKebabGroup r) →
      List.Chain' (fun x y => ¬(x = '-' ∧ y = '-')) rs.flatten := by
  intro rs
  induction rs with
  | nil => intro _; simp
  | cons r rest ih =>
      intro hall
      rw [List.flatten_cons, List.chain'_append]
      refine ⟨chain'_kebabGroup (hall r (by simp)),
        ih (fun r' hr' => hall r' (List.mem_cons_of_mem _ hr')), ?_⟩
      intro x hx y _ hxy
      exact lowerDigitB_ne_hyphen
        (kebabGroup_getLast (hall r (by simp)) x hx) hxy.1

theorem kebab_chain' {s : List Char} (h : Lang KEBAB_CASE s) :
    List.Chain' (fun x y => ¬(x = '-' ∧ y = '-')) s := by
  obtain ⟨a, b, rs, rfl, _, ha, hb, hrs⟩ := kebab_decomp.mp h
  rw [List.chain'_append]
  refine ⟨chain'_of_no_hyphen (fun c hc => lowerB_ne_hyphen (ha c hc)), ?_, ?_⟩
  · rw [List.chain'_append]
    refine ⟨chain'_of_no_hyphen (fun c hc => lowerDigitB_ne_hyphen (hb c hc)),
      chain'_kebabGroups_flatten rs hrs, ?_⟩
    intro x hx y _ hxy
    exact lowerDigitB_ne_hyphen (hb x (mem_of_getLast hx)) hxy.1
  · intro x hx y _ hxy
    exact lowerB_ne_hyphen (ha x (mem_of_getLast hx)) hxy.1

theorem kebab_no_double_hyphen {s : List Char} (h : Lang KEBAB_CASE s) :
    ¬ (['-', '-'] <:+: s) := by
  intro hinf
  have hc := kebab_chain' h
  obtain ⟨u, v, rfl⟩ := hinf
  have h2 := (List.chain'_append.mp hc).1
  have h3 := (List.chain'_append.mp h2).2.1
  exact List.chain'_pair.mp h3 ⟨rfl, rfl⟩

theorem kebab_leading {s : List Char} (h : Lang KEBAB_CASE s) :
    s.head? ≠ some '-' := by
  obtain ⟨c, t, rfl, hc⟩ := kebab_head h
  intro hx
  simp at hx
  rw [hx] at hc
  exact absurd hc (by decide)

/-- C3: every string matched by `KEBAB_CASE` contains no uppercase letter,
contains no two consecutive hyphens, and neither begins nor ends with a
hyphen. -/
theorem C3_kebab_properties : ∀ s : List Char, gmatch KEBAB_CASE s = true →
    (∀ c ∈ s, upperB c = false) ∧ ¬ (['-', '-'] <:+: s) ∧
    s.head? ≠ some '-' ∧ s.getLast? ≠ some '-' := by
  intro s h
  have hl := gmatch_iff.mp h
  refine ⟨?_, kebab_no_double_hyphen hl, kebab_leading hl, kebab_trailing hl⟩
  intro c hc
  have hk := lang_allchars chrsSat_kebab hl c hc
  simp [kebabCharsB] at hk
  rcases hk with (h1 | h1) | h1
  · exact lowerB_not_upperB h1
  · exact digitB_not_upperB h1
  · rw [h1]; decide

/-- Witness for C3 at the concrete input `"user-profile"`. -/
theorem C3_kebab_properties_witness :
    gmatch KEBAB_CASE "user-profile".toList = true ∧
    ((∀ c ∈ "user-profile".toList, upperB c = false) ∧
      ¬ (['-', '-'] <:+: "user-profile".toList) ∧
      ("user-profile".toList).head? ≠ some '-' ∧
      ("user-profile".toList).getLast? ≠ some '-') := by
  have h : gmatch KEBAB_CASE "user-profile".toList = true := by decide
  exact ⟨h, C3_kebab_properties _ h⟩

theorem gmatch_congr {X Y : Pat} (h : ∀ s, Lang X s ↔ Lang Y s) :
    ∀ s, gmatch X s = gmatch Y s := by
  intro s
  cases hy : gmatch Y s with
  | true => exact gmatch_iff.mpr ((h s).mpr (gmatch_iff.mp hy))
  | false =>
      cases hx : gmatch X s with
      | false => rfl
      | true =>
          have hc := gmatch_iff.mpr ((h s).mp (gmatch_iff.mp hx))
          simp [hy] at hc

theorem optional_spec_equiv :
    ∀ s, Lang TANSTACK_OPTIONAL_SEGMENTS s ↔ Lang OptionalSpecPat s := by
  intro s
  unfold TANSTACK_OPTIONAL_SEGMENTS OptionalSpecPat TANSTACK_DYNAMIC_SEGMENTS
  constructor
  · intro h
    obtain ⟨t, rfl, ht⟩ := lang_cat_lit.mp h
    rcases lang_alt_iff.mp ht with h1 | h2
    · apply Lang.altL
      obtain ⟨u, v, rfl, hu, hv⟩ := lang_cat_iff.mp h1
      have hc : Lang (.cat (.cat (lit '$') CAMEL_CASE) (lit '?'))
          (('$' :: u) ++ v) :=
        Lang.cat (lang_cat_lit.mpr ⟨u, rfl, hu⟩) hv
      simpa using hc
    · apply Lang.altR
      obtain ⟨u, rfl, hu⟩ := lang_cat_lit.mp h2
      have hc : Lang (.cat (litStr "$.".toList) CAMEL_CASE)
          ("$.".toList ++ u) :=
        Lang.cat (lang_litStr_iff.mpr rfl) hu
      simpa using hc
  · intro h
    rcases lang_alt_iff.mp h with h1 | h2
    · obtain ⟨u, v, rfl, hu, hv⟩ := lang_cat_iff.mp h1
      obtain ⟨t, rfl, ht⟩ := lang_cat_lit.mp hu
      rcases lang_lit_iff.mp hv with rfl
      apply lang_cat_lit.mpr
      refine ⟨t ++ ['?'], by simp, ?_⟩
      exact Lang.altL (Lang.cat ht (lang_lit_iff.mpr rfl))
    · obtain ⟨u, v, rfl, hu, hv⟩ := lang_cat_iff.mp h2
      rcases lang_litStr_iff.mp hu with rfl
      apply lang_cat_lit.mpr
      refine ⟨'.' :: v, rfl, ?_⟩
      exact Lang.altR (lang_cat_lit.mpr ⟨v, rfl, hv⟩)

/-- C4: the optional-segment pattern matches `"$id?"` and `"$.slug"`, does
not match `"$id"`, and accepts exactly the alternation of (dynamic atomic
followed by a literal question mark) with (a literal dollar-dot followed by
the camel-case atomic). -/
theorem C4_optional_segments :
    gmatch TANSTACK_OPTIONAL_SEGMENTS "$id?".toList = true ∧
    gmatch TANSTACK_OPTIONAL_SEGMENTS "$.slug".toList = true ∧
    gmatch TANSTACK_OPTIONAL_SEGMENTS "$id".toList = false ∧
    ∀ s : List Char,
      gmatch TANSTACK_OPTIONAL_SEGMENTS s = gmatch OptionalSpecPat s := by
  exact ⟨by decide, by decide, by decide, gmatch_congr optional_spec_equiv⟩

/-- C5: the dynamic-segment pattern matches `"$id"` and `"$productId"`, and
matches neither `"id"` (missing sigil) nor `"$Id"` (uppercase after the
sigil). -/
theorem C5_dynamic_segments :
    gmatch TANSTACK_DYNAMIC_SEGMENTS "$id".toList = true ∧
    gmatch TANSTACK_DYNAMIC_SEGMENTS "$productId".toList = true ∧
    gmatch TANSTACK_DYNAMIC_SEGMENTS "id".toList = false ∧
    gmatch TANSTACK_DYNAMIC_SEGMENTS "$Id".toList = false := by decide

/-- C6: the route-group pattern matches `"(admin)"` and `"(user-profile)"`,
and matches neither `"admin"` (missing parentheses) nor `"(UserProfile)"`
(non-kebab content inside the parentheses). -/
theorem C6_route_groups :
    gmatch TANSTACK_ROUTE_GROUPS "(admin)".toList = true ∧
    gmatch TANSTACK_ROUTE_GROUPS "(user-profile)".toList = true ∧
    gmatch TANSTACK_ROUTE_GROUPS "admin".toList = false ∧
    gmatch TANSTACK_ROUTE_GROUPS "(UserProfile)".toList = false := by decide

theorem chrsSat_litStr {P : Char → Bool} :
    ∀ {l : List Char}, (∀ c ∈ l, P c = true) → ChrsSat P (litStr l) := by
  intro l
  induction l with
  | nil => intro _; trivial
  | cons c t ih =>
      intro h
      exact ⟨litChr_sat (h c (by simp)),
        ih (fun x hx => h x (List.mem_cons_of_mem _ hx))⟩

theorem chrsSat_mono {P Q : Char → Bool}
    (hPQ : ∀ c, P c = true → Q c = true) : ∀ {p : Pat}, ChrsSat P p → ChrsSat Q p := by
  intro p
  induction p with
  | emp => intro _; trivial
  | eps => intro _; trivial
  | chr q => intro h c hc; exact hPQ c (h c hc)
  | cat a b iha ihb => intro h; exact ⟨iha h.1, ihb h.2⟩
  | alt a b iha ihb => intro h; exact ⟨iha h.1, ihb h.2⟩
  | star a iha => intro h; exact iha h

theorem alnumB_fnCharsB : ∀ c, alnumB c = true → fnCharsB c = true := by
  intro c h; simp [fnCharsB, h]

theorem kebabCharsB_fnCharsB : ∀ c, kebabCharsB c = true → fnCharsB c = true := by
  intro c h
  simp [kebabCharsB] at h
  rcases h with (h | h) | h
  · exact alnumB_fnCharsB c (lowerB_alnumB c h)
  · exact alnumB_fnCharsB c (by simp [alnumB, h])
  · rw [h]; decide

theorem chrsSat_filename : ChrsSat fnCharsB TANSTACK_FILENAME_CASE := by
  have hcam : ChrsSat fnCharsB CAMEL_CASE :=
    chrsSat_mono alnumB_fnCharsB chrsSat_camel
  have hkeb : ChrsSat fnCharsB KEBAB_CASE :=
    chrsSat_mono kebabCharsB_fnCharsB chrsSat_kebab
  refine ⟨chrsSat_litStr (by decide), chrsSat_litStr (by decide),
    ⟨hkeb, hcam⟩, ⟨litChr_sat (by decide), hcam⟩,
    ⟨litChr_sat (by decide),
      ⟨hcam, litChr_sat (by decide)⟩, litChr_sat (by decide), hcam⟩,
    litChr_sat (by decide),
    ⟨litChr_sat (by decide), hkeb, litChr_sat (by decide)⟩,
    litChr_sat (by decide), hcam⟩

theorem fnCharsB_safe {c : Char} (h : fnCharsB c = true) :
    ¬ c = '/' ∧ c.isWhitespace = false := by
  constructor
  · intro hc
    rw [hc] at h
    exact absurd h (by decide)
  · cases hw : c.isWhitespace with
    | false => rfl
    | true =>
        exfalso
        simp [Char.isWhitespace] at hw
        rcases hw with ((h1 | h1) | h1) | h1 <;> subst h1 <;>
          exact absurd h (by decide)

/-- C7: the filename pattern matches `"index"`, `"route"`, `"$id"`,
`"(admin)"`, and every string matched by the static atomic (kebab or camel);
and it matches no string containing a path separator or whitespace. -/
theorem C7_filename_pattern :
    gmatch TANSTACK_FILENAME_CASE "index".toList = true ∧
    gmatch TANSTACK_FILENAME_CASE "route".toList = true ∧
    gmatch TANSTACK_FILENAME_CASE "$id".toList = true ∧
    gmatch TANSTACK_FILENAME_CASE "(admin)".toList = true ∧
    (∀ s : List Char, gmatch TANSTACK_STATIC_ROUTE s = true →
      gmatch TANSTACK_FILENAME_CASE s = true) ∧
    (∀ s : List Char, gmatch TANSTACK_FILENAME_CASE s = true →
      ∀ c ∈ s, ¬ c = '/' ∧ c.isWhitespace = false) := by
  refine ⟨by decide, by decide, by decide, by decide, ?_, ?_⟩
  · intro s h
    apply gmatch_iff.mpr
    unfold TANSTACK_FILENAME_CASE
    exact Lang.altR (Lang.altR (Lang.altL (gmatch_iff.mp h)))
  · intro s h c hc
    exact fnCharsB_safe (lang_allchars chrsSat_filename (gmatch_iff.mp h) c hc)

/-- Witness for C7 at the concrete input `"about"`. -/
theorem C7_filename_pattern_witness :
    gmatch TANSTACK_STATIC_ROUTE "about".toList = true ∧
    gmatch TANSTACK_FILENAME_CASE "about".toList = true ∧
    (∀ c ∈ "about".toList, ¬ c = '/' ∧ c.isWhitespace = false) := by
  have h : gmatch TANSTACK_STATIC_ROUTE "about".toList = true := by decide
  have h2 := C7_filename_pattern.2.2.2.2.1 "about".toList h
  exact ⟨h, h2, C7_filename_pattern.2.2.2.2.2 "about".toList h2⟩

/-- C8: under the rule mapping the glob `apps/*/app/routes/**` to the
folder-case grammar, the path segment `"(user-profile)"` is accepted,
`"UserProfile"` is rejected, and `"_utils"` is accepted. -/
theorem C8_folder_rule_end_to_end :
    lookupFolderRule "apps/*/app/routes/**" =
      some (.pattern TANSTACK_FOLDER_CASE) ∧
    gmatch TANSTACK_FOLDER_CASE "(user-profile)".toList = true ∧
    gmatch TANSTACK_FOLDER_CASE "UserProfile".toList = false ∧
    gmatch TANSTACK_FOLDER_CASE "_utils".toList = true :=
  ⟨rfl, by decide, by decide, by decide⟩

/-- C9: the folder pattern is the full route-segment pattern alone: the two
patterns accept exactly the same strings. -/
theorem C9_folder_equals_segment :
    ∀ s : List Char,
      gmatch TANSTACK_FOLDER_CASE s = gmatch TANSTACK_ROUTE_SEGMENT s :=
  fun _ => rfl

theorem filename_folder_equiv :
    ∀ s, Lang TANSTACK_FILENAME_CASE s ↔ Lang TANSTACK_FOLDER_CASE s := by
  intro s
  constructor
  · intro h
    unfold TANSTACK_FILENAME_CASE at h
    rcases lang_alt_iff.mp h with h1 | h
    · rcases lang_litStr_iff.mp h1 with rfl
      exact gmatch_iff.mp (by decide)
    rcases lang_alt_iff.mp h with h1 | h
    · rcases lang_litStr_iff.mp h1 with rfl
      exact gmatch_iff.mp (by decide)
    exact h
  · intro h
    unfold TANSTACK_FOLDER_CASE at h
    unfold TANSTACK_FILENAME_CASE
    exact Lang.altR (Lang.altR h)

/-- C10: the literal alternatives `index` and `route` of the filename
pattern are redundant: both are already matched by the static route atomic,
and the filename pattern and the folder pattern accept exactly the same
strings. -/
theorem C10_filename_redundancy :
    gmatch TANSTACK_STATIC_ROUTE "index".toList = true ∧
    gmatch TANSTACK_STATIC_ROUTE "route".toList = true ∧
    ∀ s : List Char,
      gmatch TANSTACK_FILENAME_CASE s = gmatch TANSTACK_FOLDER_CASE s :=
  ⟨by decide, by decide, gmatch_congr filename_folder_equiv⟩

end EslintConfig
